import Mathlib

/-!
# Verification of the gorepost IRC core (package `irc`)

This development shallowly embeds the IRC client core of the repository:

* the wire codec (`parse` / `serialize`) for protocol lines, and
* the connection lifecycle (`Setup`, `Keeper`, `Sender`, `Receiver`, `Dial`
  from `src/irc/irc.go`), embedded as effect traces / step functions.

The codec implementation (`irc.Message`, `irc.ParseMessage`,
`irc.Message.String`) is not part of the sources under `src/`; only its
callers are.  Those definitions are therefore modelled from the
specification's grammar (spec sections 3, 4.1 and 6) and are marked
`Modelled from the spec:` in their doc comments.  Everything about the
connection lifecycle is translated directly from `src/irc/irc.go`.
-/

namespace Gorepost

/-! ## Data model (spec section 3)

Modelled from the spec: the structured message type of the wire codec.
The `context` mapping of session-scoped tags is "never serialized" per the
spec, so it does not appear in the codec model.  The spec requires that an
empty-string trailing and an absent trailing be distinct states, hence
`trailing : Option String`. -/

/-- Modelled from the spec: the optional sender identity
`name['!'user]['@'host]` of a server-originated line (spec calls it the
origin; the Go sources call it `irc.Prefix`). -/
structure Origin where
  name : String
  user : Option String
  host : Option String
deriving DecidableEq, Repr

/-- Modelled from the spec: one protocol unit.  `origin` is present only on
server-originated lines; `command` is required; `params` are the ordered
middle tokens; `trailing` is the final space-permitting parameter, with
empty (`some ""`) and absent (`none`) distinct. -/
structure Message where
  origin : Option Origin
  command : String
  params : List String
  trailing : Option String
deriving DecidableEq, Repr

/-! ## Serialization (spec section 4.1, grammar in section 6) -/

/-- Modelled from the spec: the origin segment `name['!'user]['@'host]`. -/
def originChars (o : Origin) : List Char :=
  o.name.data
    ++ (match o.user with | some u => '!' :: u.data | none => [])
    ++ (match o.host with | some h => '@' :: h.data | none => [])

/-- Modelled from the spec: each middle param is serialized with a single
leading space: `(SPACE param)*`. -/
def paramsChars : List String → List Char
  | [] => []
  | p :: ps => ' ' :: (p.data ++ paramsChars ps)

/-- Modelled from the spec: the optional trailing segment `SPACE ':' trailing`;
absent trailing serializes to nothing. -/
def trailingChars : Option String → List Char
  | none => []
  | some t => ' ' :: ':' :: t.data

/-- Modelled from the spec: the serialized line without the line terminator,
`[':' origin SPACE] command (SPACE param)* [SPACE ':' trailing]`.
This is the model of the Go `Message.String()` used by the Sender (the
Sender appends the `endline` terminator itself, per `src/irc/irc.go`). -/
def serializeCore (m : Message) : List Char :=
  (match m.origin with | some o => ':' :: (originChars o ++ [' ']) | none => [])
    ++ m.command.data ++ paramsChars m.params ++ trailingChars m.trailing

/-- Model of the Go `Message.String()` (modelled from the spec, see
`serializeCore`). -/
def msgString (m : Message) : String := ⟨serializeCore m⟩

/-- The two-character line terminator, `const endline string = "\r\n"` in
`src/irc/irc.go`. -/
def endline : String := "\r\n"

/-- Modelled from the spec: `serialize(Message) -> line`, the inverse
construction, which "always terminates with the two-character line
terminator expected by the transport". -/
def serialize (m : Message) : String := ⟨serializeCore m ++ ['\r', '\n']⟩

/-! ## Parsing (spec section 4.1)

The parser is modelled from the spec grammar: optional `:origin ` prefix,
then the command token, then space-separated middle tokens not starting
with `:`, then an optional ` :trailing` capturing the remainder verbatim.
"Input lines are framed by a single line-delimiter; any trailing
carriage-return must be stripped before parsing."  It fails (with
`MalformedMessage`, modelled as `none`) exactly when the command token
cannot be extracted. -/

/-- Strip the framing: one optional trailing line feed, then one optional
trailing carriage return. -/
def stripLineEnd (l : List Char) : List Char :=
  let l1 := if l.getLast? = some '\n' then l.dropLast else l
  if l1.getLast? = some '\r' then l1.dropLast else l1

/-- Modelled from the spec: split a line body at the first ` :` marker; the
part after the marker is the trailing parameter, captured verbatim. -/
def splitTrailing : List Char → List Char × Option (List Char)
  | [] => ([], none)
  | [c] => ([c], none)
  | c :: d :: rest =>
    if c = ' ' ∧ d = ':' then ([], some rest)
    else
      let s := splitTrailing (d :: rest)
      (c :: s.1, s.2)

/-- Split a list of characters on spaces into words (the command token and
the middle params).  Always returns a non-empty list of words. -/
def splitWords : List Char → List (List Char)
  | [] => [[]]
  | c :: rest =>
    if c = ' ' then [] :: splitWords rest
    else
      match splitWords rest with
      | [] => [[c]]
      | w :: ws => (c :: w) :: ws

/-- Modelled from the spec: parse the origin segment `name['!'user]['@'host]`
(or a bare server name). -/
def parseOriginChars (o : List Char) : Origin :=
  match o.dropWhile (· != '!') with
  | _ :: r =>
    match r.dropWhile (· != '@') with
    | _ :: hst => ⟨⟨o.takeWhile (· != '!')⟩, some ⟨r.takeWhile (· != '@')⟩, some ⟨hst⟩⟩
    | [] => ⟨⟨o.takeWhile (· != '!')⟩, some ⟨r.takeWhile (· != '@')⟩, none⟩
  | [] =>
    match o.dropWhile (· != '@') with
    | _ :: hst => ⟨⟨o.takeWhile (· != '@')⟩, none, some ⟨hst⟩⟩
    | [] => ⟨⟨o⟩, none, none⟩

/-- Modelled from the spec: parse a line whose framing has already been
stripped.  Returns `none` (`MalformedMessage`) when the command cannot be
extracted. -/
def parseStripped (l : List Char) : Option Message :=
  match l with
  | [] => none
  | c :: r =>
    let pr : Option Origin × List Char :=
      if c = ':' then
        (some (parseOriginChars (r.takeWhile (· != ' '))),
         (r.dropWhile (· != ' ')).drop 1)
      else (none, c :: r)
    let st := splitTrailing pr.2
    match splitWords st.1 with
    | [] => none
    | cmd :: ps =>
      if cmd.isEmpty then none
      else some ⟨pr.1, ⟨cmd⟩, ps.map fun p => (⟨p⟩ : String), st.2.map fun t => (⟨t⟩ : String)⟩

/-- Modelled from the spec: `parse(line) -> Message`, the model of the Go
`irc.ParseMessage` (absent from `src/`; only its caller `Receiver` is
present). -/
def parse (s : String) : Option Message := parseStripped (stripLineEnd s.data)

/-! ## Well-formedness (spec sections 3 and 6)

Modelled from the spec: "`command` = letters+ or exactly 3 digits", "`param`
tokens never start with `:` and never contain a space", origin components
are atoms of the `name['!'user]['@'host]` shape, and no character of a line
may be one of the framing characters. -/

/-- A character that may appear anywhere in a line: not a framing character. -/
def lineChar (c : Char) : Bool := c != '\r' && c != '\n'

/-- A character of a space-free token. -/
def plainChar (c : Char) : Bool := lineChar c && c != ' '

/-- A component of the origin: an atom free of the separators `!`, `@`
and of spaces. -/
def wfName (s : String) : Bool :=
  s.data.all fun c => plainChar c && c != '!' && c != '@'

/-- Modelled from the spec: well-formed origin. -/
def wfOrigin (o : Origin) : Bool :=
  !o.name.data.isEmpty && wfName o.name
    && (match o.user with | some u => wfName u | none => true)
    && (match o.host with | some h => wfName h | none => true)

/-- Modelled from the spec: "`command`: non-empty token, either an
alphabetic verb or a 3-digit numeric reply code". -/
def wfCommand (s : String) : Bool :=
  (!s.data.isEmpty && s.data.all Char.isAlpha)
    || (s.data.length == 3 && s.data.all Char.isDigit)

/-- Modelled from the spec: "no token may contain a space or start with
`:`" (and params are non-empty tokens). -/
def wfParam (s : String) : Bool :=
  match s.data with
  | [] => false
  | c :: _ => (c != ':') && s.data.all plainChar

/-- The trailing parameter may contain spaces but no framing characters. -/
def wfTrailing : Option String → Bool
  | none => true
  | some t => t.data.all lineChar

/-- Modelled from the spec: the invariants of the `Message` data model
(spec section 3) together with the token shapes of the grammar (section 6). -/
def wfMessage (m : Message) : Bool :=
  (match m.origin with | some o => wfOrigin o | none => true)
    && wfCommand m.command
    && m.params.all wfParam
    && wfTrailing m.trailing

/-- Modelled from the spec: a syntactically valid protocol line — a line of
the section 6 grammar, i.e. the serialization of some well-formed message,
either bare (framing already removed), or framed by the line delimiter with
an optional carriage return before it. -/
def ValidLine (s : String) : Prop :=
  ∃ m, wfMessage m = true ∧
    (s.data = serializeCore m ++ ['\r', '\n']
      ∨ s.data = serializeCore m ++ ['\n']
      ∨ s.data = serializeCore m)

/-! ## Helper lemmas for the round-trip proofs -/

theorem string_mk_data (s : String) : (⟨s.data⟩ : String) = s := by
  cases s
  rfl

theorem takeWhile_of_all {α : Type} {p : α → Bool} :
    ∀ {l : List α}, (∀ a ∈ l, p a = true) → l.takeWhile p = l
  | [], _ => rfl
  | a :: l, h => by
    have ha : p a = true := h a (List.mem_cons_self a l)
    simp [List.takeWhile_cons, ha, takeWhile_of_all fun b hb => h b (List.mem_cons_of_mem a hb)]

theorem dropWhile_of_all {α : Type} {p : α → Bool} :
    ∀ {l : List α}, (∀ a ∈ l, p a = true) → l.dropWhile p = []
  | [], _ => rfl
  | a :: l, h => by
    have ha : p a = true := h a (List.mem_cons_self a l)
    simp [List.dropWhile_cons, ha, dropWhile_of_all fun b hb => h b (List.mem_cons_of_mem a hb)]

theorem takeWhile_append_stop {α : Type} {p : α → Bool} {b : α} (hb : p b = false) :
    ∀ {l : List α} (r : List α), (∀ a ∈ l, p a = true) →
      (l ++ b :: r).takeWhile p = l
  | [], r, _ => by simp [List.takeWhile_cons, hb]
  | a :: l, r, h => by
    have ha : p a = true := h a (List.mem_cons_self a l)
    simp only [List.cons_append, List.takeWhile_cons, ha, if_true]
    simp [takeWhile_append_stop hb r fun c hc => h c (List.mem_cons_of_mem a hc)]

theorem dropWhile_append_stop {α : Type} {p : α → Bool} {b : α} (hb : p b = false) :
    ∀ {l : List α} (r : List α), (∀ a ∈ l, p a = true) →
      (l ++ b :: r).dropWhile p = b :: r
  | [], r, _ => by simp [List.dropWhile_cons, hb]
  | a :: l, r, h => by
    have ha : p a = true := h a (List.mem_cons_self a l)
    simp only [List.cons_append, List.dropWhile_cons, ha, if_true]
    exact dropWhile_append_stop hb r fun c hc => h c (List.mem_cons_of_mem a hc)

/-- `splitTrailing` passes over a space-free chunk untouched. -/
theorem splitTrailing_word {x : List Char} (hx : ∀ c ∈ x, c ≠ ' ') :
    ∀ r, splitTrailing (x ++ r) = (x ++ (splitTrailing r).1, (splitTrailing r).2) := by
  induction x with
  | nil => intro r; simp
  | cons c x ih =>
    intro r
    have hc : c ≠ ' ' := hx c (List.mem_cons_self c x)
    have hx' : ∀ a ∈ x, a ≠ ' ' := fun a ha => hx a (List.mem_cons_of_mem c ha)
    cases hxr : x ++ r with
    | nil =>
      rcases List.append_eq_nil.mp hxr with ⟨rfl, rfl⟩
      simp [splitTrailing]
    | cons d rest =>
      have : splitTrailing (c :: d :: rest) = (c :: (splitTrailing (d :: rest)).1,
          (splitTrailing (d :: rest)).2) := by
        rw [splitTrailing]
        simp [hc]
      rw [List.cons_append, hxr, this, ← hxr, ih hx' r]
      simp

/-- `splitTrailing` splits the serialized params-and-trailing segment exactly
at the serialized trailing marker. -/
theorem splitTrailing_paramsTrailing :
    ∀ (ps : List String), (∀ p ∈ ps, wfParam p = true) → ∀ (tr : Option String),
      splitTrailing (paramsChars ps ++ trailingChars tr) =
        (paramsChars ps, tr.map String.data) := by
  intro ps
  induction ps with
  | nil =>
    intro _ tr
    cases tr with
    | none => simp [paramsChars, trailingChars, splitTrailing]
    | some t =>
      simp only [paramsChars, trailingChars, List.nil_append]
      rw [splitTrailing]
      simp
  | cons p ps ih =>
    intro h tr
    have hp : wfParam p = true := h p (List.mem_cons_self p ps)
    have hps : ∀ q ∈ ps, wfParam q = true := fun q hq => h q (List.mem_cons_of_mem p hq)
    obtain ⟨e, p2, hpd⟩ : ∃ e p2, p.data = e :: p2 := by
      unfold wfParam at hp
      rcases hpd : p.data with _ | ⟨e, p2⟩
      · rw [hpd] at hp; simp at hp
      · exact ⟨e, p2, rfl⟩
    have he : e ≠ ':' := by
      unfold wfParam at hp
      rw [hpd] at hp
      simp only [Bool.and_eq_true, bne_iff_ne, ne_eq] at hp
      exact hp.1
    have hpchars : ∀ c ∈ p.data, c ≠ ' ' := by
      intro c hc
      unfold wfParam at hp
      rw [hpd] at hp
      simp only [Bool.and_eq_true, List.all_eq_true] at hp
      have := hp.2 c (hpd ▸ hc)
      unfold plainChar lineChar at this
      simp only [Bool.and_eq_true, bne_iff_ne, ne_eq] at this
      exact this.2
    have step : splitTrailing (' ' :: e :: (p2 ++ (paramsChars ps ++ trailingChars tr))) =
        (' ' :: (splitTrailing (e :: p2 ++ (paramsChars ps ++ trailingChars tr))).1,
         (splitTrailing (e :: p2 ++ (paramsChars ps ++ trailingChars tr))).2) := by
      rw [splitTrailing]
      simp [he]
    have hword := splitTrailing_word (x := p.data) hpchars (paramsChars ps ++ trailingChars tr)
    calc splitTrailing (paramsChars (p :: ps) ++ trailingChars tr)
        = splitTrailing (' ' :: e :: (p2 ++ (paramsChars ps ++ trailingChars tr))) := by
          simp [paramsChars, hpd]
      _ = (' ' :: (splitTrailing (p.data ++ (paramsChars ps ++ trailingChars tr))).1,
           (splitTrailing (p.data ++ (paramsChars ps ++ trailingChars tr))).2) := by
          rw [step, hpd]
      _ = (' ' :: (p.data ++ paramsChars ps), tr.map String.data) := by
          rw [hword, ih hps tr]
      _ = (paramsChars (p :: ps), tr.map String.data) := by
          simp [paramsChars]

/-- A space-free word is a single word. -/
theorem splitWords_single {w : List Char} (hw : ∀ c ∈ w, c ≠ ' ') :
    splitWords w = [w] := by
  induction w with
  | nil => rfl
  | cons c w ih =>
    have hc : c ≠ ' ' := hw c (List.mem_cons_self c w)
    rw [splitWords, ih fun a ha => hw a (List.mem_cons_of_mem c ha)]
    simp [hc]

theorem splitWords_append {w : List Char} (hw : ∀ c ∈ w, c ≠ ' ') (rest : List Char) :
    splitWords (w ++ ' ' :: rest) = w :: splitWords rest := by
  induction w with
  | nil => simp [splitWords]
  | cons c w ih =>
    have hc : c ≠ ' ' := hw c (List.mem_cons_self c w)
    rw [List.cons_append, splitWords, ih fun a ha => hw a (List.mem_cons_of_mem c ha)]
    simp [hc]

/-- `splitWords` of the serialized command-and-params segment recovers the
command and each param token. -/
theorem splitWords_paramsChars :
    ∀ (ps : List String), (∀ p ∈ ps, wfParam p = true) →
      ∀ (w : List Char), (∀ c ∈ w, c ≠ ' ') →
        splitWords (w ++ paramsChars ps) = w :: ps.map String.data := by
  intro ps
  induction ps with
  | nil =>
    intro _ w hw
    simp [paramsChars, splitWords_single hw]
  | cons p ps ih =>
    intro h w hw
    have hp : wfParam p = true := h p (List.mem_cons_self p ps)
    have hps : ∀ q ∈ ps, wfParam q = true := fun q hq => h q (List.mem_cons_of_mem p hq)
    have hpchars : ∀ c ∈ p.data, c ≠ ' ' := by
      intro c hc
      unfold wfParam at hp
      rcases hpd : p.data with _ | ⟨e, p2⟩
      · rw [hpd] at hp; simp at hp
      · rw [hpd] at hp
        simp only [Bool.and_eq_true, List.all_eq_true] at hp
        have := hp.2 c (hpd ▸ hc)
        unfold plainChar lineChar at this
        simp only [Bool.and_eq_true, bne_iff_ne, ne_eq] at this
        exact this.2
    have : w ++ paramsChars (p :: ps) = w ++ ' ' :: (p.data ++ paramsChars ps) := by
      simp [paramsChars]
    rw [this, splitWords_append hw, ih hps p.data hpchars]
    simp

/-- Stripping the full `"\r\n"` terminator recovers the core line. -/
theorem stripLineEnd_crlf (l : List Char) :
    stripLineEnd (l ++ ['\r', '\n']) = l := by
  have h1 : l ++ ['\r', '\n'] = (l ++ ['\r']) ++ ['\n'] := by simp
  unfold stripLineEnd
  rw [h1]
  simp [List.getLast?_concat, List.dropLast_concat]

/-- The characters of a well-formed origin component avoid the separators
and framing characters. -/
theorem wfName_chars {s : String} (hs : wfName s = true) :
    ∀ c ∈ s.data, c ≠ ' ' ∧ c ≠ '!' ∧ c ≠ '@' ∧ c ≠ '\n' ∧ c ≠ '\r' := by
  intro c hc
  unfold wfName at hs
  simp only [List.all_eq_true] at hs
  have := hs c hc
  unfold plainChar lineChar at this
  simp only [Bool.and_eq_true, bne_iff_ne, ne_eq] at this
  exact ⟨this.1.1.2, this.1.2, this.2, this.1.1.1.2, this.1.1.1.1⟩

/-- The structural facts about a well-formed param token. -/
theorem wfParam_facts {p : String} (hp : wfParam p = true) :
    (∃ e p2, p.data = e :: p2 ∧ e ≠ ':')
      ∧ ∀ c ∈ p.data, c ≠ ' ' ∧ c ≠ '\n' ∧ c ≠ '\r' := by
  unfold wfParam at hp
  rcases hpd : p.data with _ | ⟨e, p2⟩
  · rw [hpd] at hp; simp at hp
  · rw [hpd] at hp
    simp only [Bool.and_eq_true, List.all_eq_true, bne_iff_ne, ne_eq] at hp
    refine ⟨⟨e, p2, rfl, hp.1⟩, ?_⟩
    intro c hc
    have := hp.2 c (hpd ▸ hc)
    unfold plainChar lineChar at this
    simp only [Bool.and_eq_true, bne_iff_ne, ne_eq] at this
    exact ⟨this.2, this.1.2, this.1.1⟩

/-- The structural facts about a well-formed command token: non-empty,
space-free, not starting with `:`, no framing characters. -/
theorem wfCommand_facts {s : String} (hs : wfCommand s = true) :
    s.data ≠ [] ∧ ∀ c ∈ s.data, c ≠ ' ' ∧ c ≠ ':' ∧ c ≠ '\n' ∧ c ≠ '\r' := by
  unfold wfCommand at hs
  simp only [Bool.or_eq_true, Bool.and_eq_true, List.all_eq_true] at hs
  have hchars : ∀ c ∈ s.data, c.isAlpha = true ∨ c.isDigit = true := by
    rcases hs with ⟨-, h⟩ | ⟨-, h⟩
    · exact fun c hc => Or.inl (h c hc)
    · exact fun c hc => Or.inr (h c hc)
  have hne : s.data ≠ [] := by
    intro hnil
    rcases hs with ⟨h, -⟩ | ⟨h, -⟩
    · rw [hnil] at h; simp at h
    · rw [hnil] at h; simp at h
  refine ⟨hne, fun c hc => ?_⟩
  rcases hchars c hc with h | h <;>
    (refine ⟨?_, ?_, ?_, ?_⟩ <;> (rintro rfl; exact absurd h (by decide)))

/-- Characters of the serialized params segment: spaces and param characters. -/
theorem paramsChars_lineChars {ps : List String}
    (hps : ∀ p ∈ ps, wfParam p = true) :
    ∀ c ∈ paramsChars ps, c ≠ '\n' ∧ c ≠ '\r' := by
  induction ps with
  | nil => intro c hc; simp [paramsChars] at hc
  | cons p ps ih =>
    intro c hc
    simp only [paramsChars, List.mem_cons, List.mem_append] at hc
    rcases hc with rfl | hc | hc
    · exact ⟨by decide, by decide⟩
    · have := (wfParam_facts (hps p (List.mem_cons_self p ps))).2 c hc
      exact ⟨this.2.1, this.2.2⟩
    · exact ih (fun q hq => hps q (List.mem_cons_of_mem p hq)) c hc

/-- Every character of a well-formed serialized core line is a line
character (not a framing character). -/
theorem serializeCore_lineChars {m : Message} (h : wfMessage m = true) :
    ∀ c ∈ serializeCore m, c ≠ '\n' ∧ c ≠ '\r' := by
  unfold wfMessage at h
  simp only [Bool.and_eq_true] at h
  obtain ⟨⟨⟨horig, hcmd⟩, hps⟩, htr⟩ := h
  simp only [List.all_eq_true] at hps
  intro c hc
  unfold serializeCore at hc
  simp only [List.mem_append] at hc
  rcases hc with ((hc | hc) | hc) | hc
  · -- origin segment
    cases hm : m.origin with
    | none => rw [hm] at hc; simp at hc
    | some o =>
      rw [hm] at hc horig
      simp only [List.mem_cons, List.mem_append, List.mem_singleton] at hc
      unfold wfOrigin at horig
      simp only [Bool.and_eq_true] at horig
      obtain ⟨⟨⟨-, hname⟩, huser⟩, hhost⟩ := horig
      rcases hc with rfl | hc
      · exact ⟨by decide, by decide⟩
      unfold originChars at hc
      simp only [List.mem_append] at hc
      rcases hc with ((hc | hc) | hc) | hc
      · have := wfName_chars hname c hc
        exact ⟨this.2.2.2.1, this.2.2.2.2⟩
      · cases hu : o.user with
        | none => rw [hu] at hc; simp at hc
        | some u =>
          rw [hu] at hc huser
          simp only [List.mem_cons] at hc
          rcases hc with rfl | hc
          · exact ⟨by decide, by decide⟩
          · have := wfName_chars huser c hc
            exact ⟨this.2.2.2.1, this.2.2.2.2⟩
      · cases hh : o.host with
        | none => rw [hh] at hc; simp at hc
        | some hst =>
          rw [hh] at hc hhost
          simp only [List.mem_cons] at hc
          rcases hc with rfl | hc
          · exact ⟨by decide, by decide⟩
          · have := wfName_chars hhost c hc
            exact ⟨this.2.2.2.1, this.2.2.2.2⟩
      · rcases hc with rfl | hc
        · exact ⟨by decide, by decide⟩
        · simp at hc
  · -- command
    have := (wfCommand_facts hcmd).2 c hc
    exact ⟨this.2.2.1, this.2.2.2⟩
  · -- params
    exact paramsChars_lineChars hps c hc
  · -- trailing
    cases hm : m.trailing with
    | none => rw [hm] at hc; simp [trailingChars] at hc
    | some t =>
      rw [hm] at hc htr
      unfold trailingChars at hc
      simp only [List.mem_cons] at hc
      unfold wfTrailing at htr
      simp only [List.all_eq_true] at htr
      rcases hc with rfl | rfl | hc
      · exact ⟨by decide, by decide⟩
      · exact ⟨by decide, by decide⟩
      · have := htr c hc
        unfold lineChar at this
        simp only [Bool.and_eq_true, bne_iff_ne, ne_eq] at this
        exact ⟨this.2, this.1⟩

theorem mem_of_getLast?_eq {α : Type} {l : List α} {a : α}
    (h : l.getLast? = some a) : a ∈ l := by
  obtain ⟨hne, ha⟩ := List.mem_getLast?_eq_getLast (l := l) (x := a) h
  rw [ha]
  exact List.getLast_mem hne

/-- A list whose characters are not framing characters is left intact by
`stripLineEnd`. -/
theorem stripLineEnd_id {l : List Char}
    (h : ∀ c ∈ l, c ≠ '\n' ∧ c ≠ '\r') : stripLineEnd l = l := by
  unfold stripLineEnd
  have hn : l.getLast? ≠ some '\n' := by
    intro hl
    exact (h '\n' (mem_of_getLast?_eq hl)).1 rfl
  have hr : l.getLast? ≠ some '\r' := by
    intro hl
    exact (h '\r' (mem_of_getLast?_eq hl)).2 rfl
  simp [hn, hr]

/-- Stripping a bare `"\n"` terminator from a well-formed core recovers it. -/
theorem stripLineEnd_lf {l : List Char}
    (h : ∀ c ∈ l, c ≠ '\n' ∧ c ≠ '\r') : stripLineEnd (l ++ ['\n']) = l := by
  unfold stripLineEnd
  have hr : l.getLast? ≠ some '\r' := by
    intro hl
    exact (h '\r' (mem_of_getLast?_eq hl)).2 rfl
  simp [List.getLast?_concat, List.dropLast_concat, hr]

theorem map_mk_map_data (ps : List String) :
    (ps.map String.data).map (fun l => (⟨l⟩ : String)) = ps := by
  induction ps with
  | nil => rfl
  | cons p ps ih => simp [ih, string_mk_data]

theorem omap_mk_map_data (tr : Option String) :
    (tr.map String.data).map (fun l => (⟨l⟩ : String)) = tr := by
  cases tr <;> simp [string_mk_data]

/-- No character of a well-formed serialized origin is a space. -/
theorem originChars_no_space {o : Origin} (h : wfOrigin o = true) :
    ∀ c ∈ originChars o, c ≠ ' ' := by
  obtain ⟨nm, usr, hst⟩ := o
  unfold wfOrigin at h
  simp only [Bool.and_eq_true] at h
  obtain ⟨⟨⟨-, hname⟩, huser⟩, hhost⟩ := h
  intro c hc
  unfold originChars at hc
  simp only [List.mem_append] at hc
  rcases hc with (hc | hc) | hc
  · exact (wfName_chars hname c hc).1
  · cases usr with
    | none => simp at hc
    | some u =>
      have hu : wfName u = true := huser
      simp only [List.mem_cons] at hc
      rcases hc with rfl | hc
      · decide
      · exact (wfName_chars hu c hc).1
  · cases hst with
    | none => simp at hc
    | some hs =>
      have hh : wfName hs = true := hhost
      simp only [List.mem_cons] at hc
      rcases hc with rfl | hc
      · decide
      · exact (wfName_chars hh c hc).1

/-- Parsing back a well-formed serialized origin recovers it exactly. -/
theorem parseOriginChars_originChars {o : Origin} (h : wfOrigin o = true) :
    parseOriginChars (originChars o) = o := by
  obtain ⟨nm, usr, hst⟩ := o
  unfold wfOrigin at h
  simp only [Bool.and_eq_true] at h
  obtain ⟨⟨⟨-, hname⟩, huser⟩, hhost⟩ := h
  have hn := wfName_chars hname
  have hnb : ∀ c ∈ nm.data, (c != '!') = true := fun c hc => by
    simp only [bne_iff_ne, ne_eq, decide_eq_true_eq]; exact (hn c hc).2.1
  have hna : ∀ c ∈ nm.data, (c != '@') = true := fun c hc => by
    simp only [bne_iff_ne, ne_eq, decide_eq_true_eq]; exact (hn c hc).2.2.1
  cases usr with
  | none =>
    cases hst with
    | none =>
      have h1 : (nm.data).dropWhile (· != '!') = [] := dropWhile_of_all hnb
      have h2 : (nm.data).dropWhile (· != '@') = [] := dropWhile_of_all hna
      unfold originChars parseOriginChars
      simp only [List.append_nil, h1, h2]
    | some hs =>
      have hh := wfName_chars (show wfName hs = true from hhost)
      have hall : ∀ c ∈ nm.data ++ '@' :: hs.data, (c != '!') = true := by
        intro c hc
        simp only [List.mem_append, List.mem_cons] at hc
        simp only [bne_iff_ne, ne_eq, decide_eq_true_eq]
        rcases hc with hc | rfl | hc
        · exact (hn c hc).2.1
        · decide
        · exact (hh c hc).2.1
      have h1 : (nm.data ++ '@' :: hs.data).dropWhile (· != '!') = [] :=
        dropWhile_of_all hall
      have h2 : (nm.data ++ '@' :: hs.data).dropWhile (· != '@') = '@' :: hs.data :=
        dropWhile_append_stop (by decide) hs.data hna
      have h3 : (nm.data ++ '@' :: hs.data).takeWhile (· != '@') = nm.data :=
        takeWhile_append_stop (by decide) hs.data hna
      unfold originChars parseOriginChars
      simp only [List.append_nil, h1, h2, h3]
  | some u =>
    have hu := wfName_chars (show wfName u = true from huser)
    have hua : ∀ c ∈ u.data, (c != '@') = true := fun c hc => by
      simp only [bne_iff_ne, ne_eq, decide_eq_true_eq]; exact (hu c hc).2.2.1
    cases hst with
    | none =>
      have h1 : (nm.data ++ '!' :: u.data).dropWhile (· != '!') = '!' :: u.data :=
        dropWhile_append_stop (by decide) u.data hnb
      have h2 : (nm.data ++ '!' :: u.data).takeWhile (· != '!') = nm.data :=
        takeWhile_append_stop (by decide) u.data hnb
      have h3 : (u.data).dropWhile (· != '@') = [] := dropWhile_of_all hua
      have h4 : (u.data).takeWhile (· != '@') = u.data := takeWhile_of_all hua
      unfold originChars parseOriginChars
      simp only [List.append_nil, h1, h2, h3, h4]
    | some hs =>
      have hh := wfName_chars (show wfName hs = true from hhost)
      have h1 : (nm.data ++ '!' :: (u.data ++ '@' :: hs.data)).dropWhile (· != '!')
          = '!' :: (u.data ++ '@' :: hs.data) :=
        dropWhile_append_stop (by decide) _ hnb
      have h2 : (nm.data ++ '!' :: (u.data ++ '@' :: hs.data)).takeWhile (· != '!')
          = nm.data :=
        takeWhile_append_stop (by decide) _ hnb
      have h3 : (u.data ++ '@' :: hs.data).dropWhile (· != '@') = '@' :: hs.data :=
        dropWhile_append_stop (by decide) hs.data hua
      have h4 : (u.data ++ '@' :: hs.data).takeWhile (· != '@') = u.data :=
        takeWhile_append_stop (by decide) hs.data hua
      have hshape : originChars ⟨nm, some u, some hs⟩
          = nm.data ++ '!' :: (u.data ++ '@' :: hs.data) := by
        unfold originChars
        simp
      rw [hshape]
      unfold parseOriginChars
      simp only [h1, h2, h3, h4]

/-- Core round trip: parsing the (already stripped) serialization of a
well-formed message recovers the message exactly. -/
theorem parseStripped_serializeCore {m : Message} (h : wfMessage m = true) :
    parseStripped (serializeCore m) = some m := by
  obtain ⟨org, cmd, ps, tr⟩ := m
  have hwf := h
  unfold wfMessage at h
  simp only [Bool.and_eq_true, List.all_eq_true] at h
  obtain ⟨⟨⟨horig, hcmd⟩, hps⟩, htr⟩ := h
  obtain ⟨hcmdne, hcmdchars⟩ := wfCommand_facts hcmd
  obtain ⟨c0, cs, hcd⟩ := List.exists_cons_of_ne_nil hcmdne
  have hc0 : c0 ≠ ':' := by
    have := hcmdchars c0 (by rw [hcd]; exact List.mem_cons_self _ _)
    exact this.2.1
  have hcmdns : ∀ c ∈ cmd.data, c ≠ ' ' := fun c hc => (hcmdchars c hc).1
  have hbody : splitTrailing (cmd.data ++ (paramsChars ps ++ trailingChars tr))
      = (cmd.data ++ paramsChars ps, tr.map String.data) := by
    rw [splitTrailing_word hcmdns, splitTrailing_paramsTrailing ps hps tr]
  have hwords : splitWords (cmd.data ++ paramsChars ps) = cmd.data :: ps.map String.data :=
    splitWords_paramsChars ps hps cmd.data hcmdns
  rw [hcd] at hbody hwords
  simp only [List.cons_append, List.append_assoc] at hbody hwords
  cases org with
  | none =>
    show parseStripped (([] : List Char)
        ++ cmd.data ++ paramsChars ps ++ trailingChars tr) = _
    rw [show (([] : List Char) ++ cmd.data ++ paramsChars ps ++ trailingChars tr)
          = c0 :: (cs ++ (paramsChars ps ++ trailingChars tr)) by
        rw [hcd]; simp]
    unfold parseStripped
    simp only [if_neg hc0, hbody, hwords, List.isEmpty_cons]
    simp [← hcd, map_mk_map_data, omap_mk_map_data]
    constructor
    · exact List.map_id ps
    · cases tr <;> rfl
  | some o =>
    have horig' : wfOrigin o = true := horig
    have hnosp : ∀ c ∈ originChars o, (c != ' ') = true := fun c hc => by
      simp only [bne_iff_ne, ne_eq, decide_eq_true_eq]
      exact originChars_no_space horig' c hc
    show parseStripped ((':' :: (originChars o ++ [' ']))
        ++ cmd.data ++ paramsChars ps ++ trailingChars tr) = _
    rw [show ((':' :: (originChars o ++ [' ']))
          ++ cmd.data ++ paramsChars ps ++ trailingChars tr)
          = ':' :: (originChars o
              ++ ' ' :: (c0 :: (cs ++ (paramsChars ps ++ trailingChars tr)))) by
        rw [hcd]; simp]
    have htw : (originChars o
        ++ ' ' :: (c0 :: (cs ++ (paramsChars ps ++ trailingChars tr)))).takeWhile
          (· != ' ') = originChars o := takeWhile_append_stop (by decide) _ hnosp
    have hdw : (originChars o
        ++ ' ' :: (c0 :: (cs ++ (paramsChars ps ++ trailingChars tr)))).dropWhile
          (· != ' ') = ' ' :: (c0 :: (cs ++ (paramsChars ps ++ trailingChars tr))) :=
      dropWhile_append_stop (by decide) _ hnosp
    unfold parseStripped
    simp only [htw, hdw, List.drop_succ_cons, List.drop_zero]
    simp [hbody, hwords, parseOriginChars_originChars horig', List.isEmpty_cons, ← hcd]
    refine ⟨hcmdne, List.map_id ps, ?_⟩
    cases tr <;> rfl

/-- Parsing the full serialization (with terminator) of a well-formed
message recovers it exactly. -/
theorem parse_serialize {m : Message} (h : wfMessage m = true) :
    parse (serialize m) = some m := by
  show parseStripped (stripLineEnd (serializeCore m ++ ['\r', '\n'])) = some m
  rw [stripLineEnd_crlf]
  exact parseStripped_serializeCore h

/-! ## The two codec claims -/

/-- Claim C4: for every syntactically valid protocol line `L`,
`serialize(parse(L))` is wire-equivalent to `L`: both parse to the very same
structured message, hence they agree on origin presence and value, command,
params in order, and trailing value and presence. -/
theorem parse_roundtrip_wire_equivalent (s : String) (h : ValidLine s) :
    ∃ m, parse s = some m ∧ parse (serialize m) = some m := by
  obtain ⟨m, hwf, hcase⟩ := h
  have hline := serializeCore_lineChars hwf
  have hmain := parseStripped_serializeCore hwf
  refine ⟨m, ?_, parse_serialize hwf⟩
  unfold parse
  rcases hcase with hc | hc | hc <;> rw [hc]
  · rw [stripLineEnd_crlf]; exact hmain
  · rw [stripLineEnd_lf hline]; exact hmain
  · rw [stripLineEnd_id hline]; exact hmain

/-- Concrete witness for C4 at the line
`:srv!usr@hst PRIVMSG #chan :hello world`. -/
theorem parse_roundtrip_wire_equivalent_witness :
    ∃ m, parse ":srv!usr@hst PRIVMSG #chan :hello world" = some m ∧
      parse (serialize m) = some m :=
  parse_roundtrip_wire_equivalent ":srv!usr@hst PRIVMSG #chan :hello world"
    ⟨⟨some ⟨"srv", some "usr", some "hst"⟩, "PRIVMSG", ["#chan"], some "hello world"⟩,
     by decide, Or.inr (Or.inr (by decide))⟩

/-- Claim C7: for every well-formed message whose trailing contains an
embedded space, `parse(serialize(m)).trailing` equals `m.trailing` exactly;
and the empty-vs-absent trailing distinction is preserved through the
serialize-then-parse round trip (the parsed trailing is `m.trailing`
itself, as an `Option`). -/
theorem trailing_roundtrip (m : Message) (h : wfMessage m = true) :
    (∀ t, m.trailing = some t → ' ' ∈ t.data →
        ∃ m2, parse (serialize m) = some m2 ∧ m2.trailing = some t)
      ∧ ∃ m2, parse (serialize m) = some m2 ∧ m2.trailing = m.trailing := by
  have hmain := parse_serialize h
  exact ⟨fun t ht _ => ⟨m, hmain, ht⟩, ⟨m, hmain, rfl⟩⟩

/-- Concrete witness for C7 at a message whose trailing `"hello world"`
contains an embedded space. -/
theorem trailing_roundtrip_witness :
    ∃ m2, parse (serialize ⟨none, "PRIVMSG", ["#chan"], some "hello world"⟩)
        = some m2 ∧ m2.trailing = some "hello world" :=
  (trailing_roundtrip ⟨none, "PRIVMSG", ["#chan"], some "hello world"⟩
    (by decide)).1 "hello world" rfl (by decide)

/-! ## Connection lifecycle (`src/irc/irc.go`)

The four roles communicate through channels; each role's loop body is
embedded as a pure step function producing the list of externally visible
effects it performs, in program order.  `Effect` enumerates the operations
of `src/irc/irc.go`: channel creation with the buffer capacity passed to
`make`, channel close, server selection, dialling, transport assignment,
goroutine spawning, channel sends and writes.  Constructors `sleep` and
`reportError` exist so that their absence from every trace can be stated:
the source contains no delay call and no configuration-error path.
`crash` models a Go runtime panic (`rand.Intn(0)` panics). -/

inductive Effect where
  | mkChan (channel : String) (capacity : Nat)
  | closeChan (channel : String)
  | selectRandom (poolSize : Nat)
  | dial (server : String)
  | setTransport (server : String)
  | spawnSender
  | spawnReceiver
  | spawnKeeper
  | spawnCleaner
  | sendReconnect
  | enqueueInput (m : Message)
  | signalQuit
  | publishOutput (m : Message)
  | write (line : String)
  | sleep (ms : Nat)
  | reportError (msg : String)
  | crash
deriving DecidableEq, Repr

/-- One iteration of `Keeper`'s loop (`src/irc/irc.go` lines 93–128), run
after `<-c.reconnect` fires.  Inputs model the environment:
`inputLive` is whether a previous generation's channels exist
(`c.Input != nil`); `servers` is the pool; `k` is the value returned by
`rand.Intn(len(servers))` (hence `k < servers.length`; `rand.Intn(0)`
panics, modelled by `crash`); `dialOk` is whether the TCP dial succeeds.
Note the source never inspects `Dial`'s return value: the trace after the
dial is the same whether it failed or succeeded, except for the transport
assignment that `Dial` itself performs. -/
def keeperCycle (inputLive : Bool) (servers : List String) (k : Nat)
    (dialOk : Bool) (nick user realName : String) : List Effect :=
  (if inputLive then
      [.closeChan "Input", .closeChan "Output",
       .closeChan "quitsend", .closeChan "quitrecv"]
    else [])
  ++ [.mkChan "Input" 1, .mkChan "Output" 1,
      .mkChan "quitsend" 1, .mkChan "quitrecv" 1]
  ++ (if servers.isEmpty then [.selectRandom 0, .crash]
      else
        let server := servers.getD (k % servers.length) ""
        [.selectRandom servers.length, .dial server]
        ++ (if dialOk then [.setTransport server] else [])
        ++ [.spawnSender, .spawnReceiver,
            .enqueueInput ⟨none, "NICK", [], some nick⟩,
            .enqueueInput ⟨none, "USER", [user, "0", "*"], some realName⟩])

/-- The effect trace of `Setup` (`src/irc/irc.go` lines 130–144): make the
two lifecycle channels (capacity 1), mark a reconnect pending, spawn
`Keeper` and `Cleaner`, and return.  The server pool is not validated
anywhere in `Setup`. -/
def setupEffects : List Effect :=
  [.mkChan "reconnect" 1, .mkChan "Quit" 1,
   .sendReconnect, .spawnKeeper, .spawnCleaner]

/-- The event that wakes `Sender`'s `select` (`src/irc/irc.go` lines 32–45):
either a message arrives on `c.Input` or the stop signal on `c.quitsend`. -/
inductive SenderEvent where
  | input (m : Message)
  | quitsend
deriving DecidableEq

/-- One iteration of `Sender`'s loop (`src/irc/irc.go` lines 32–45): on a
message, it writes `msg.String() + endline` and flushes; the result of the
write/flush is `writeOk`, which the source never inspects.  Returns the
effects performed and whether the loop continues. -/
def senderStep (ev : SenderEvent) (writeOk : Bool) : List Effect × Bool :=
  match ev with
  | .input m => ([.write (msgString m ++ endline)], true)
  | .quitsend => ([], false)

/-- The outcome of `Receiver`'s blocking `c.reader.ReadString(delim)`
(`src/irc/irc.go` line 50): an I/O failure, or a raw line. -/
inductive ReadResult where
  | fail
  | line (raw : String)
deriving DecidableEq

/-- One iteration of `Receiver`'s loop (`src/irc/irc.go` lines 47–75): a
read error sends on `c.Quit` and returns; a decode error
(`ParseMessage` fails) sends on `c.Quit` and returns; otherwise the parsed
message is published to `c.Output` (the `select` against `quitrecv` is
abstracted to the publish).  Returns the effects performed and whether the
loop continues. -/
def receiverStep (r : ReadResult) : List Effect × Bool :=
  match r with
  | .fail => ([.signalQuit], false)
  | .line raw =>
    match parse raw with
    | none => ([.signalQuit], false)
    | some m => ([.publishOutput m], true)

/-- The socket-related fields of `Connection` assigned by `Dial`
(`src/irc/irc.go` lines 146–159): `conn`, `reader`, `writer`; `none` before
the first successful dial.  The handles are identified by the address they
were dialled to. -/
structure Transport where
  conn : Option String
  reader : Option String
  writer : Option String
deriving DecidableEq, Repr

/-- `Dial` (`src/irc/irc.go` lines 146–159): on dial error, it returns the
error with every field left untouched; on success it installs the writer,
reader and connection and returns no error. -/
def Dial (t : Transport) (server : String) (dialOk : Bool) :
    Transport × Option String :=
  if dialOk then
    ({ conn := some server, reader := some server, writer := some server }, none)
  else (t, some "dial error")

/-- The messages enqueued on the outbound queue `c.Input` during a trace,
in order. -/
def enqueuedInputs (es : List Effect) : List Message :=
  es.filterMap fun e => match e with | .enqueueInput m => some m | _ => none

/-! ## Lifecycle claims -/

/-- Claim C1 (the code refutes the backoff part): the full trace of a keeper
cycle in which the dial to the selected server fails.  The dial error is
ignored — the trace contains no sleep/backoff effect at all, and the cycle
proceeds to spawn Sender and Receiver and enqueue the registration
messages on the dead generation instead of scheduling a delayed retry. -/
theorem keeper_dial_failure_trace :
    keeperCycle false ["irc.example.net:6667"] 0 false "n" "u" "r" =
      [.mkChan "Input" 1, .mkChan "Output" 1, .mkChan "quitsend" 1,
       .mkChan "quitrecv" 1, .selectRandom 1, .dial "irc.example.net:6667",
       .spawnSender, .spawnReceiver,
       .enqueueInput ⟨none, "NICK", [], some "n"⟩,
       .enqueueInput ⟨none, "USER", ["u", "0", "*"], some "r"⟩]
      ∧ ∀ ms, Effect.sleep ms ∉
          keeperCycle false ["irc.example.net:6667"] 0 false "n" "u" "r" := by
  refine ⟨rfl, fun ms => ?_⟩
  simp [keeperCycle]

/-- Claim C2 (the code refutes it): the Sender ignores the result of the
write entirely — for any message, and in particular when the write fails,
it performs only the write effect, never raises the shared failure signal,
and continues its loop. -/
theorem sender_ignores_write_failure (m : Message) (writeOk : Bool) :
    senderStep (.input m) writeOk = ([.write (msgString m ++ endline)], true)
      ∧ Effect.signalQuit ∉ (senderStep (.input m) writeOk).1 := by
  refine ⟨rfl, ?_⟩
  simp [senderStep]

/-- Claim C3: on every successful (re)connection, exactly two registration
messages are enqueued on the new generation's outbound queue, in this
order: NICK carrying the connection's nick as trailing, then USER carrying
the connection's user and realName. -/
theorem keeper_registration (inputLive : Bool) (servers : List String) (k : Nat)
    (nick user realName : String) (hne : servers ≠ []) :
    enqueuedInputs (keeperCycle inputLive servers k true nick user realName) =
      [⟨none, "NICK", [], some nick⟩,
       ⟨none, "USER", [user, "0", "*"], some realName⟩] := by
  have hse : servers.isEmpty = false := by
    cases servers with
    | nil => exact absurd rfl hne
    | cons a l => rfl
  unfold keeperCycle enqueuedInputs
  cases inputLive <;> simp [hse, List.filterMap_append]

/-- Concrete witness for C3: one successful connection on a one-server
pool. -/
theorem keeper_registration_witness :
    enqueuedInputs (keeperCycle false ["irc.example.net:6667"] 0 true
        "gorepost" "gorepost" "gorepost bot") =
      [⟨none, "NICK", [], some "gorepost"⟩,
       ⟨none, "USER", ["gorepost", "0", "*"], some "gorepost bot"⟩] :=
  keeper_registration false ["irc.example.net:6667"] 0
    "gorepost" "gorepost" "gorepost bot" (by decide)

/-- Claim C5: a read failure from the transport, or a decode failure
(`MalformedMessage`), is fatal to the generation: the Receiver raises the
shared failure signal and exits its loop (continue flag `false`), with no
per-line retry. -/
theorem receiver_failure_fatal :
    receiverStep .fail = ([.signalQuit], false)
      ∧ ∀ raw, parse raw = none →
          receiverStep (.line raw) = ([.signalQuit], false) := by
  refine ⟨rfl, fun raw h => ?_⟩
  simp only [receiverStep, h]

/-- Concrete witness for C5: the line `":malformed"` (origin with no
command) fails to decode and is fatal. -/
theorem receiver_failure_fatal_witness :
    receiverStep (.line ":malformed") = ([.signalQuit], false) :=
  receiver_failure_fatal.2 ":malformed" (by decide)

/-- Claim C6 (the code refutes it): with an empty server pool, `Setup`
performs no validation and reports no configuration error — its trace is
the normal one — and the first keeper cycle does reach random server
selection, where `rand.Intn(0)` panics. -/
theorem empty_pool_reaches_selection :
    setupEffects = [.mkChan "reconnect" 1, .mkChan "Quit" 1, .sendReconnect,
        .spawnKeeper, .spawnCleaner]
      ∧ (∀ msg, Effect.reportError msg ∉ setupEffects)
      ∧ keeperCycle false [] 0 true "n" "u" "r" =
          [.mkChan "Input" 1, .mkChan "Output" 1, .mkChan "quitsend" 1,
           .mkChan "quitrecv" 1, .selectRandom 0, .crash] := by
  refine ⟨rfl, fun msg => ?_, rfl⟩
  simp [setupEffects]

/-- Claim C8: with a server pool of size exactly 1, every reconnect cycle
dials that one address, whatever the random draw and the rest of the cycle
state. -/
theorem single_server_always_dialled (a : String) (inputLive : Bool) (k : Nat)
    (dialOk : Bool) (nick user realName : String) :
    Effect.dial a ∈ keeperCycle inputLive [a] k dialOk nick user realName := by
  cases inputLive <;> cases dialOk <;>
    simp [keeperCycle, Nat.mod_one, List.getD]

/-- Claim C9: `Dial` is atomic on error: when the TCP dial fails it returns
the error and leaves `conn`, `reader` and `writer` exactly as they were
(the previous generation's values, or `none` before the first success);
they are assigned only when the dial succeeds. -/
theorem dial_atomic_on_error (t : Transport) (server : String) :
    Dial t server false = (t, some "dial error")
      ∧ (Dial t server true).1 = ⟨some server, some server, some server⟩
      ∧ (Dial t server true).2 = none :=
  ⟨rfl, rfl, rfl⟩

/-- Claim C10: every channel the Connection creates — `reconnect` and
`Quit` in `Setup`, and `Input`, `Output`, `quitsend`, `quitrecv` in each
keeper cycle — is made with buffer capacity exactly 1. -/
theorem all_channels_capacity_one (ch : String) (cap : Nat)
    (inputLive : Bool) (servers : List String) (k : Nat) (dialOk : Bool)
    (nick user realName : String)
    (h : Effect.mkChan ch cap ∈ setupEffects
        ∨ Effect.mkChan ch cap ∈
            keeperCycle inputLive servers k dialOk nick user realName) :
    cap = 1 := by
  rcases h with h | h
  · simp [setupEffects] at h
    tauto
  · unfold keeperCycle at h
    cases inputLive <;> cases hse : servers.isEmpty <;> cases dialOk <;>
      simp [hse, List.mem_append] at h <;> tauto

/-- Concrete witness for C10: the `reconnect` channel made in `Setup`. -/
theorem all_channels_capacity_one_witness : (1 : Nat) = 1 :=
  all_channels_capacity_one "reconnect" 1 false [] 0 false "" "" ""
    (Or.inl (by decide))

end Gorepost
